import Mathlib

/-!
Shallow embedding of the UVM two-stage assembler (assembler.py): line
parsing into an intermediate representation and encoding into 4-byte
little-endian machine words.  Strings are modelled as Lean strings or
lists of characters; Python integers as `Int`; the fallible byte export
`int.to_bytes(4, little)` as an `Option` returning `none` exactly when
Python raises `OverflowError` (negative word or word ≥ 2^32).
-/

/-- ASCII whitespace as recognised by Python `str.strip` / `str.split`. -/
def isPySpace (c : Char) : Bool :=
  c = ' ' || c = '\t' || c = '\n' || c = '\r' || c = '\x0b' || c = '\x0c'

/-- Python `str.strip`: drop leading and trailing whitespace. -/
def pyStrip (l : List Char) : List Char :=
  ((l.dropWhile isPySpace).reverse.dropWhile isPySpace).reverse

/-- Python `str.split()` with no separator: split on whitespace runs,
discarding empty pieces. -/
def pySplitWs (l : List Char) : List (List Char) :=
  (l.splitOnP (isPySpace ·)).filter (· ≠ [])

/-- Helper for the digit part of Python `int(...)`: after a first digit,
digits may continue, with single underscores allowed between digits. -/
def pyDigitsAux : Nat → List Char → Option Nat
  | acc, [] => some acc
  | acc, '_' :: c :: rest =>
    if c.isDigit then pyDigitsAux (acc * 10 + (c.toNat - 48)) rest else none
  | acc, c :: rest =>
    if c.isDigit then pyDigitsAux (acc * 10 + (c.toNat - 48)) rest else none

/-- The digit part of a Python base-10 integer literal: non-empty, starts
with a digit. -/
def pyDigits : List Char → Option Nat
  | [] => none
  | c :: rest => if c.isDigit then pyDigitsAux (c.toNat - 48) rest else none

/-- Python `int(token)` on a whitespace-free token: optional sign followed
by a base-10 digit string; `none` models `ValueError`. -/
def parsePyInt (s : List Char) : Option Int :=
  match s with
  | '+' :: rest => (pyDigits rest).map Int.ofNat
  | '-' :: rest => (pyDigits rest).map (fun n => -(Int.ofNat n))
  | l => (pyDigits l).map Int.ofNat

/-- The IR node: mnemonic, opcode field `A`, optional operand field `B`
(the `Instruction` dataclass). -/
structure Instruction where
  mnemonic : String
  A : Int
  B : Option Int := none
deriving DecidableEq, Repr

/-- The three structured parse failures raised as `SyntaxError` by
`parse_line`; each carries the 1-based source line number. -/
inductive ParseError where
  | unknownMnemonic (line_no : Nat) (mnemonic : String)
  | arityMismatch (line_no : Nat)
  | invalidOperand (line_no : Nat)
deriving DecidableEq, Repr

/-- The 1-based source line number carried by a parse failure. -/
def ParseError.lineNo : ParseError → Nat
  | .unknownMnemonic n _ => n
  | .arityMismatch n => n
  | .invalidOperand n => n

/-- The opcode table (`OPCODES` in assembler.py). -/
def OPCODES : List (String × Int) :=
  [("LOAD_CONST", 42), ("LOAD_MEM", 23), ("STORE_MEM", 1), ("BITREVERSE", 60)]

/-- Membership lookup in the opcode table. -/
def lookupOpcode (m : String) : Option Int :=
  OPCODES.lookup m

/-- The comment-stripped, whitespace-trimmed remainder of a source line
(`line.split(";")[0].strip()`). -/
def strippedOf (line : String) : List Char :=
  pyStrip (line.toList.takeWhile (· ≠ ';'))

/-- The whitespace-separated tokens of the stripped line (`line.split()`). -/
def tokensOf (line : String) : List (List Char) :=
  pySplitWs (strippedOf line)

/-- The upper-cased first token (`parts[0].upper()`). -/
def mnemonicOf (line : String) : String :=
  String.mk (((tokensOf line).headD []).map Char.toUpper)

/-- The line parser `parse_line`: zero or one IR instruction, or a
structured failure. -/
def parse_line (line : String) (line_no : Nat) :
    Except ParseError (Option Instruction) :=
  let stripped := strippedOf line
  if stripped = [] then .ok none
  else
    let parts := tokensOf line
    let mnemonic := mnemonicOf line
    match lookupOpcode mnemonic with
    | none => .error (.unknownMnemonic line_no mnemonic)
    | some opcode =>
      if mnemonic = "LOAD_CONST" ∨ mnemonic = "LOAD_MEM" then
        if parts.length ≠ 2 then .error (.arityMismatch line_no)
        else
          match parsePyInt (parts.getD 1 []) with
          | none => .error (.invalidOperand line_no)
          | some operand => .ok (some ⟨mnemonic, opcode, some operand⟩)
      else if mnemonic = "STORE_MEM" ∨ mnemonic = "BITREVERSE" then
        if parts.length ≠ 1 then .error (.arityMismatch line_no)
        else .ok (some ⟨mnemonic, opcode, none⟩)
      else .ok none

/-- The driver loop of `assemble_to_ir`, carrying the next 1-based line
number; the first failure aborts the whole run. -/
def assembleFrom : List String → Nat → Except ParseError (List Instruction)
  | [], _ => .ok []
  | line :: rest, i =>
    match parse_line line i with
    | .error e => .error e
    | .ok none => assembleFrom rest (i + 1)
    | .ok (some instr) => (assembleFrom rest (i + 1)).map (instr :: ·)

/-- `assemble_to_ir`: parse every line, 1-based, keeping instructions in
source order. -/
def assemble_to_ir (source_lines : List String) :
    Except ParseError (List Instruction) :=
  assembleFrom source_lines 1

/-- The four little-endian bytes of a machine word already known to fit
in 32 bits. -/
def le4 (w : Nat) : List Nat :=
  [w % 256, w / 256 % 256, w / 256 / 256 % 256, w / 256 / 256 / 256 % 256]

/-- Python `word.to_bytes(4, little)`: the 4 little-endian bytes when
`0 ≤ word < 2^32`, and `none` (an `OverflowError`) otherwise. -/
def pyToBytes4LE (word : Int) : Option (List Nat) :=
  if 0 ≤ word ∧ word < 4294967296 then some (le4 word.toNat) else none

/-- The local `word` of `encode_instruction`: pack the fields into a
machine word by mnemonic family. -/
def encode_word (instr : Instruction) : Int :=
  let A := instr.A
  let B := instr.B.getD 0
  if instr.mnemonic = "LOAD_CONST" then (B <<< (6 : Int)).lor A
  else if instr.mnemonic = "LOAD_MEM" then (B <<< (6 : Int)).lor A
  else A

/-- `encode_instruction`: pack the fields into a 32-bit word by mnemonic
family and export it as 4 little-endian bytes. -/
def encode_instruction (instr : Instruction) : Option (List Nat) :=
  pyToBytes4LE (encode_word instr)

/-- The image writer: the concatenation of the encodings of the IR,
in order (`write_binary_file`). -/
def write_binary (ir : List Instruction) : Option (List Nat) :=
  (ir.mapM encode_instruction).map List.flatten

/-- The whole pipeline: assemble to IR, then emit the binary image. -/
def assemble_and_encode (lines : List String) :
    Except ParseError (Option (List Nat)) :=
  (assemble_to_ir lines).map write_binary

/-!  Packing and case-analysis helper lemmas. -/

theorem lor_small (b a : Nat) (ha : a < 64) : (b <<< 6) ||| a = 64 * b + a := by
  apply Nat.eq_of_testBit_eq
  intro j
  rw [Nat.testBit_or, Nat.testBit_shiftLeft]
  rcases Nat.lt_or_ge j 6 with hj | hj
  · have hd : decide (j ≥ 6) = false := by
      simp only [decide_eq_false_iff_not]
      omega
    rw [hd, Bool.false_and, Bool.false_or]
    interval_cases j <;>
      · rw [Nat.testBit_to_div_mod, Nat.testBit_to_div_mod, decide_eq_decide]
        norm_num
        omega
  · have hd : decide (j ≥ 6) = true := by simpa using hj
    rw [hd, Bool.true_and]
    have ha2 : Nat.testBit a j = false := by
      apply Nat.testBit_lt_two_pow
      calc a < 64 := ha
        _ = 2 ^ 6 := by norm_num
        _ ≤ 2 ^ j := Nat.pow_le_pow_right (by norm_num) hj
    rw [ha2, Bool.or_false]
    obtain ⟨k, rfl⟩ : ∃ k, j = 6 + k := ⟨j - 6, by omega⟩
    have hdiv : (64 * b + a) / 2 ^ (6 + k) = b / 2 ^ k := by
      rw [pow_add, ← Nat.div_div_eq_div_mul]
      congr 1
      have h26 : (2 : Nat) ^ 6 = 64 := by norm_num
      rw [h26]
      omega
    rw [Nat.add_sub_cancel_left, Nat.testBit_to_div_mod, Nat.testBit_to_div_mod, hdiv]

theorem pack_ofNat (b a : Nat) :
    (((b : Int)) <<< (6 : Int)).lor ((a : Int)) = (((b <<< 6) ||| a : Nat) : Int) := by
  rw [show ((6 : Int)) = (((6 : Nat)) : Int) from rfl, Int.shiftLeft_coe_nat]
  rfl

theorem pack_negSucc (m a : Nat) :
    ((Int.negSucc m) <<< (6 : Int)).lor ((a : Int)) < 0 := by
  rw [show ((a : Int)) = Int.ofNat a from rfl,
    show ((6 : Int)) = (((6 : Nat)) : Int) from rfl, Int.shiftLeft_negSucc]
  simp only [Int.lor]
  exact Int.negSucc_lt_zero _

theorem lookupOpcode_cases {m : String} {a : Int} (h : lookupOpcode m = some a) :
    (m = "LOAD_CONST" ∧ a = 42) ∨ (m = "LOAD_MEM" ∧ a = 23) ∨
      (m = "STORE_MEM" ∧ a = 1) ∨ (m = "BITREVERSE" ∧ a = 60) := by
  unfold lookupOpcode OPCODES at h
  simp only [List.lookup] at h
  split at h
  · rename_i hb
    exact Or.inl ⟨by simpa using hb, by simpa using h.symm⟩
  split at h
  · rename_i hb
    exact Or.inr (Or.inl ⟨by simpa using hb, by simpa using h.symm⟩)
  split at h
  · rename_i hb
    exact Or.inr (Or.inr (Or.inl ⟨by simpa using hb, by simpa using h.symm⟩))
  split at h
  · rename_i hb
    exact Or.inr (Or.inr (Or.inr ⟨by simpa using hb, by simpa using h.symm⟩))
  · simp at h

theorem parse_ok_cases {line : String} {ln : Nat} {instr : Instruction}
    (h : parse_line line ln = .ok (some instr)) :
    (instr.mnemonic = "LOAD_CONST" ∧ instr.A = 42 ∧ ∃ v, instr.B = some v) ∨
      (instr.mnemonic = "LOAD_MEM" ∧ instr.A = 23 ∧ ∃ v, instr.B = some v) ∨
      (instr.mnemonic = "STORE_MEM" ∧ instr.A = 1 ∧ instr.B = none) ∨
      (instr.mnemonic = "BITREVERSE" ∧ instr.A = 60 ∧ instr.B = none) := by
  simp only [parse_line] at h
  split at h
  · exact absurd h (by simp)
  · split at h
    · exact absurd h (by simp)
    · rename_i opcode hlk
      rcases lookupOpcode_cases hlk with ⟨hm, ha⟩ | ⟨hm, ha⟩ | ⟨hm, ha⟩ | ⟨hm, ha⟩ <;>
        rw [hm] at h <;> subst ha
      · rw [if_pos (Or.inl rfl)] at h
        split at h
        · exact absurd h (by simp)
        · split at h
          · exact absurd h (by simp)
          · rename_i operand hop
            simp only [Except.ok.injEq, Option.some.injEq] at h
            subst h
            exact Or.inl ⟨rfl, rfl, operand, rfl⟩
      · rw [if_pos (Or.inr rfl)] at h
        split at h
        · exact absurd h (by simp)
        · split at h
          · exact absurd h (by simp)
          · rename_i operand hop
            simp only [Except.ok.injEq, Option.some.injEq] at h
            subst h
            exact Or.inr (Or.inl ⟨rfl, rfl, operand, rfl⟩)
      · rw [if_neg (by decide), if_pos (Or.inl rfl)] at h
        split at h
        · exact absurd h (by simp)
        · simp only [Except.ok.injEq, Option.some.injEq] at h
          subst h
          exact Or.inr (Or.inr (Or.inl ⟨rfl, rfl, rfl⟩))
      · rw [if_neg (by decide), if_pos (Or.inr rfl)] at h
        split at h
        · exact absurd h (by simp)
        · simp only [Except.ok.injEq, Option.some.injEq] at h
          subst h
          exact Or.inr (Or.inr (Or.inr ⟨rfl, rfl, rfl⟩))

/-- Encoding behaviour of the operand-bearing family, for any operand:
success with word `64*B + a` exactly when `0 ≤ B < 2^26`, failure
(OverflowError) otherwise. -/
theorem encode_load_family (mn : String) (aN : Nat)
    (hmn : mn = "LOAD_CONST" ∨ mn = "LOAD_MEM") (ha : aN < 64) (B : Int) :
    (0 ≤ B → B < 67108864 →
      encode_instruction ⟨mn, (aN : Int), some B⟩ = some (le4 (64 * B.toNat + aN))) ∧
    ((B < 0 ∨ 67108864 ≤ B) → encode_instruction ⟨mn, (aN : Int), some B⟩ = none) := by
  have hw : encode_instruction ⟨mn, (aN : Int), some B⟩ =
      pyToBytes4LE ((B <<< (6 : Int)).lor ((aN : Int))) := by
    rcases hmn with h | h <;> subst h <;> rfl
  constructor
  · intro h0 hlt
    obtain ⟨b, rfl⟩ := Int.eq_ofNat_of_zero_le h0
    rw [hw, pack_ofNat, lor_small b aN ha]
    unfold pyToBytes4LE
    rw [if_pos (by constructor <;> omega)]
    simp only [Option.some.injEq]
    congr 1
  · intro hout
    rcases hout with hneg | hbig
    · cases B with
      | ofNat b => exact absurd hneg (not_lt.mpr (Int.ofNat_nonneg b))
      | negSucc k =>
        rw [hw]
        unfold pyToBytes4LE
        rw [if_neg (fun hcon => absurd hcon.1 (not_le.mpr (pack_negSucc k aN)))]
    · obtain ⟨b, rfl⟩ := Int.eq_ofNat_of_zero_le (le_trans (by omega) hbig)
      rw [hw, pack_ofNat, lor_small b aN ha]
      unfold pyToBytes4LE
      rw [if_neg (by omega)]

/-!  Claim theorems. -/

/-- C1 (counterexample): on the four-line input the first instruction,
LOAD_CONST 3, encodes to bytes EA 00 00 00 (word (3<<6)|42 = 234), not to
the claimed 03 00 00 00; the claimed total byte sequence never appears. -/
theorem C1_counterexample :
    assemble_and_encode ["LOAD_CONST 3", "STORE_MEM", "; comment", "BITREVERSE"] ≠
      Except.ok (some [3, 0, 0, 0, 1, 0, 0, 0, 60, 0, 0, 0]) := by
  intro h
  rw [show assemble_and_encode ["LOAD_CONST 3", "STORE_MEM", "; comment", "BITREVERSE"] =
      Except.ok (some [234, 0, 0, 0, 1, 0, 0, 0, 60, 0, 0, 0]) from rfl] at h
  simp at h

/-- C1 (amended): the four-line input assembles to exactly 3 instructions,
which encode, in order, to EA 00 00 00, 01 00 00 00, 3C 00 00 00, for a
12-byte binary image. -/
theorem C1_scenario :
    ∃ i1 i2 i3 : Instruction,
      assemble_to_ir ["LOAD_CONST 3", "STORE_MEM", "; comment", "BITREVERSE"] =
        .ok [i1, i2, i3] ∧
      encode_instruction i1 = some [0xEA, 0x00, 0x00, 0x00] ∧
      encode_instruction i2 = some [0x01, 0x00, 0x00, 0x00] ∧
      encode_instruction i3 = some [0x3C, 0x00, 0x00, 0x00] ∧
      assemble_and_encode ["LOAD_CONST 3", "STORE_MEM", "; comment", "BITREVERSE"] =
        .ok (some [0xEA, 0, 0, 0, 0x01, 0, 0, 0, 0x3C, 0, 0, 0]) ∧
      ([0xEA, 0, 0, 0, 0x01, 0, 0, 0, 0x3C, 0, 0, 0] : List Nat).length = 12 :=
  ⟨⟨"LOAD_CONST", 42, some 3⟩, ⟨"STORE_MEM", 1, none⟩, ⟨"BITREVERSE", 60, none⟩,
    rfl, rfl, rfl, rfl, rfl, rfl⟩

/-- C2 (counterexample): for LOAD_CONST with B = 2^26 the packed value
(B<<6)|42 = 2^32+42 does not fit in 4 bytes and the encoder rejects the
instruction (OverflowError) instead of keeping the low 32 bits. -/
theorem C2_counterexample :
    encode_instruction ⟨"LOAD_CONST", 42, some 67108864⟩ = none := rfl

/-- C2 (amended): for LOAD_CONST and LOAD_MEM the encoder does not
validate the 16- or 24-bit field width, but it does not truncate either:
whenever 0 ≤ B < 2^26 the packed word (B<<6)|A = 64*B+A already fits in
32 bits and is encoded exactly, and for any other B (negative or
≥ 2^26) the byte export fails with an OverflowError. -/
theorem C2_no_truncation (B : Int) (m : String) (a : Int)
    (hm : (m = "LOAD_CONST" ∧ a = 42) ∨ (m = "LOAD_MEM" ∧ a = 23)) :
    (0 ≤ B → B < 67108864 →
      encode_instruction ⟨m, a, some B⟩ = some (le4 (64 * B.toNat + a.toNat))) ∧
    ((B < 0 ∨ 67108864 ≤ B) → encode_instruction ⟨m, a, some B⟩ = none) := by
  rcases hm with ⟨hm, ha⟩ | ⟨hm, ha⟩ <;> subst hm <;> subst ha
  · exact encode_load_family "LOAD_CONST" 42 (Or.inl rfl) (by norm_num) B
  · exact encode_load_family "LOAD_MEM" 23 (Or.inr rfl) (by norm_num) B

/-- C2 (witness): LOAD_CONST with B = 5 encodes to the word 64*5+42 = 362,
bytes 6A 01 00 00. -/
theorem C2_witness :
    encode_instruction ⟨"LOAD_CONST", 42, some 5⟩ = some [0x6A, 0x01, 0, 0] :=
  ((C2_no_truncation 5 "LOAD_CONST" 42 (Or.inl ⟨rfl, rfl⟩)).1 (by decide)
    (by decide)).trans rfl

/-- C8: the single line LOAD_MEM 10 parses to (LOAD_MEM, A=23, B=10) and
encodes to word (10<<6)|23 = 663 = 0x297, bytes 97 02 00 00. -/
theorem C8_load_mem_scenario :
    parse_line "LOAD_MEM 10" 1 = .ok (some ⟨"LOAD_MEM", 23, some 10⟩) ∧
    (((10 : Int) <<< (6 : Int)).lor 23 = 663) ∧
    ((663 : Nat) = 0x297) ∧
    encode_instruction ⟨"LOAD_MEM", 23, some 10⟩ = some [0x97, 0x02, 0x00, 0x00] ∧
    assemble_and_encode ["LOAD_MEM 10"] = .ok (some [0x97, 0x02, 0x00, 0x00]) :=
  ⟨rfl, rfl, rfl, rfl, rfl⟩

/-- C9: the assemble-then-encode pipeline is a pure function of the input
lines, so any two runs on the same input agree exactly. -/
theorem C9_deterministic (lines : List String)
    (r1 r2 : Except ParseError (Option (List Nat)))
    (h1 : r1 = assemble_and_encode lines) (h2 : r2 = assemble_and_encode lines) :
    r1 = r2 :=
  h1.trans h2.symm

/-- C9 (witness): two runs on the one-line program LOAD_MEM 10 agree. -/
theorem C9_witness :
    (Except.ok (some [0x97, 0x02, 0, 0]) : Except ParseError (Option (List Nat))) =
      assemble_and_encode ["LOAD_MEM 10"] :=
  C9_deterministic ["LOAD_MEM 10"] _ _ rfl rfl

/-- C4: every instruction the parser produces has B present exactly for
the operand-bearing family, and A equal to the opcode-table value of its
mnemonic. -/
theorem C4_instruction_invariant (line : String) (ln : Nat) (instr : Instruction)
    (h : parse_line line ln = .ok (some instr)) :
    (instr.B.isSome ↔
      (instr.mnemonic = "LOAD_CONST" ∨ instr.mnemonic = "LOAD_MEM")) ∧
    lookupOpcode instr.mnemonic = some instr.A := by
  rcases parse_ok_cases h with ⟨hm, ha, v, hb⟩ | ⟨hm, ha, v, hb⟩ | ⟨hm, ha, hb⟩ |
    ⟨hm, ha, hb⟩ <;> rw [hm, ha, hb] <;> exact ⟨by simp, rfl⟩

/-- C4 (witness): the invariant holds for the instruction parsed from
LOAD_CONST 3. -/
theorem C4_witness :
    (((⟨"LOAD_CONST", 42, some 3⟩ : Instruction).B.isSome ↔
        ((⟨"LOAD_CONST", 42, some 3⟩ : Instruction).mnemonic = "LOAD_CONST" ∨
          (⟨"LOAD_CONST", 42, some 3⟩ : Instruction).mnemonic = "LOAD_MEM")) ∧
      lookupOpcode (⟨"LOAD_CONST", 42, some 3⟩ : Instruction).mnemonic =
        some (⟨"LOAD_CONST", 42, some 3⟩ : Instruction).A) :=
  C4_instruction_invariant "LOAD_CONST 3" 1 ⟨"LOAD_CONST", 42, some 3⟩ rfl

/-- C10: on a non-blank line whose upper-cased first token is in the
opcode table, the parser never reaches the final fall-through: it returns
an instruction or fails, but never "no instruction". -/
theorem C10_no_fallthrough (line : String) (ln : Nat)
    (hs : strippedOf line ≠ [])
    (hk : (lookupOpcode (mnemonicOf line)).isSome) :
    parse_line line ln ≠ .ok none := by
  intro h
  simp only [parse_line] at h
  split at h
  · rename_i hc
    exact hs hc
  · split at h
    · rename_i hc
      rw [hc] at hk
      exact absurd hk (by simp)
    · rename_i opcode hlk
      rcases lookupOpcode_cases hlk with ⟨hm, ha⟩ | ⟨hm, ha⟩ | ⟨hm, ha⟩ | ⟨hm, ha⟩ <;>
        rw [hm] at h
      · rw [if_pos (Or.inl rfl)] at h
        split at h
        · exact absurd h (by simp)
        · split at h <;> exact absurd h (by simp)
      · rw [if_pos (Or.inr rfl)] at h
        split at h
        · exact absurd h (by simp)
        · split at h <;> exact absurd h (by simp)
      · rw [if_neg (by decide), if_pos (Or.inl rfl)] at h
        split at h <;> exact absurd h (by simp)
      · rw [if_neg (by decide), if_pos (Or.inr rfl)] at h
        split at h <;> exact absurd h (by simp)

/-- C10 (witness): the line BITREVERSE is not discarded. -/
theorem C10_witness : parse_line "BITREVERSE" 1 ≠ .ok none :=
  C10_no_fallthrough "BITREVERSE" 1 (by decide) (by decide)


/-- C3 (counterexample): the parser accepts LOAD_CONST -1 (operands are
signed), and encoding that instruction fails (OverflowError on the
negative packed word) instead of returning 4 bytes. -/
theorem C3_counterexample :
    parse_line "LOAD_CONST -1" 1 = .ok (some ⟨"LOAD_CONST", 42, some (-1)⟩) ∧
    encode_instruction ⟨"LOAD_CONST", 42, some (-1)⟩ = none :=
  ⟨rfl, rfl⟩

/-- C3 (amended): whenever the encoder succeeds it returns exactly 4
bytes, byte 0 being the least-significant byte of the 32-bit word; and it
does succeed on every parser-produced instruction whose operand (taken as
0 when absent) lies in [0, 2^26) — but not on every instruction, since
negative or oversized operands make the byte export fail. -/
theorem C3_four_bytes :
    (∀ instr bs, encode_instruction instr = some bs →
      bs.length = 4 ∧ ∃ w : Nat, w < 4294967296 ∧ bs = le4 w ∧ bs.headD 0 = w % 256) ∧
    (∀ line ln instr, parse_line line ln = .ok (some instr) →
      0 ≤ instr.B.getD 0 → instr.B.getD 0 < 67108864 →
      ∃ bs, encode_instruction instr = some bs) := by
  constructor
  · intro instr bs h
    simp only [encode_instruction, pyToBytes4LE] at h
    split at h
    · rename_i hcond
      simp only [Option.some.injEq] at h
      subst h
      refine ⟨rfl, _, ?_, rfl, rfl⟩
      omega
    · exact absurd h (by simp)
  · intro line ln instr h h0 hlt
    obtain ⟨mn, A, Bf⟩ := instr
    rcases parse_ok_cases h with ⟨hm, ha, v, hb⟩ | ⟨hm, ha, v, hb⟩ | ⟨hm, ha, hb⟩ |
      ⟨hm, ha, hb⟩ <;> subst hm <;> subst ha <;> subst hb
    · exact ⟨_, (encode_load_family "LOAD_CONST" 42 (Or.inl rfl) (by norm_num) v).1 h0 hlt⟩
    · exact ⟨_, (encode_load_family "LOAD_MEM" 23 (Or.inr rfl) (by norm_num) v).1 h0 hlt⟩
    · exact ⟨_, rfl⟩
    · exact ⟨_, rfl⟩

/-- C3 (witness): the encoding of STORE_MEM is the 4 bytes 01 00 00 00. -/
theorem C3_witness :
    ([1, 0, 0, 0] : List Nat).length = 4 ∧
      ∃ w : Nat, w < 4294967296 ∧ ([1, 0, 0, 0] : List Nat) = le4 w ∧
        ([1, 0, 0, 0] : List Nat).headD 0 = w % 256 :=
  C3_four_bytes.1 ⟨"STORE_MEM", 1, none⟩ [1, 0, 0, 0] rfl

/-- C7: for every instruction whose A field is the opcode-table value of
its mnemonic, a successful encoding has a word whose low 6 bits are
exactly that opcode value, whatever the operand. -/
theorem C7_low_six_bits (instr : Instruction) (bs : List Nat)
    (hA : lookupOpcode instr.mnemonic = some instr.A)
    (henc : encode_instruction instr = some bs) :
    bs.headD 0 % 64 = instr.A.toNat := by
  obtain ⟨mn, A, Bf⟩ := instr
  rcases lookupOpcode_cases hA with ⟨hm, ha⟩ | ⟨hm, ha⟩ | ⟨hm, ha⟩ | ⟨hm, ha⟩ <;>
    subst hm <;> subst ha
  · have hw : encode_word ⟨"LOAD_CONST", 42, Bf⟩ = ((Bf.getD 0) <<< (6 : Int)).lor 42 := rfl
    rw [encode_instruction, hw] at henc
    cases hBv : Bf.getD 0 with
    | ofNat b =>
      rw [hBv, show ((42 : Int)) = (((42 : Nat)) : Int) from rfl,
        show (Int.ofNat b) = ((b : Nat) : Int) from rfl, pack_ofNat,
        lor_small b 42 (by norm_num)] at henc
      simp only [pyToBytes4LE] at henc
      split at henc
      · simp only [Option.some.injEq] at henc
        subst henc
        simp only [le4, List.headD_cons]
        omega
      · exact absurd henc (by simp)
    | negSucc k =>
      rw [hBv] at henc
      simp only [pyToBytes4LE] at henc
      split at henc
      · rename_i hcond
        exact absurd hcond.1 (not_le.mpr (pack_negSucc k 42))
      · exact absurd henc (by simp)
  · have hw : encode_word ⟨"LOAD_MEM", 23, Bf⟩ = ((Bf.getD 0) <<< (6 : Int)).lor 23 := rfl
    rw [encode_instruction, hw] at henc
    cases hBv : Bf.getD 0 with
    | ofNat b =>
      rw [hBv, show ((23 : Int)) = (((23 : Nat)) : Int) from rfl,
        show (Int.ofNat b) = ((b : Nat) : Int) from rfl, pack_ofNat,
        lor_small b 23 (by norm_num)] at henc
      simp only [pyToBytes4LE] at henc
      split at henc
      · simp only [Option.some.injEq] at henc
        subst henc
        simp only [le4, List.headD_cons]
        omega
      · exact absurd henc (by simp)
    | negSucc k =>
      rw [hBv] at henc
      simp only [pyToBytes4LE] at henc
      split at henc
      · rename_i hcond
        exact absurd hcond.1 (not_le.mpr (pack_negSucc k 23))
      · exact absurd henc (by simp)
  · have h2 : some (le4 1) = some bs :=
      (show encode_instruction ⟨"STORE_MEM", 1, Bf⟩ = some (le4 1) from rfl).symm.trans henc
    simp only [Option.some.injEq] at h2
    subst h2
    rfl
  · have h2 : some (le4 60) = some bs :=
      (show encode_instruction ⟨"BITREVERSE", 60, Bf⟩ = some (le4 60) from rfl).symm.trans henc
    simp only [Option.some.injEq] at h2
    subst h2
    rfl

/-- C7 (witness): the word of LOAD_MEM 10 has low six bits 23. -/
theorem C7_witness : ([0x97, 0x02, 0, 0] : List Nat).headD 0 % 64 = (23 : Int).toNat :=
  C7_low_six_bits ⟨"LOAD_MEM", 23, some 10⟩ [0x97, 0x02, 0, 0] rfl rfl

/-- The assembler contract as the spec words it: parse each line with its
1-based position, fail on the first failure, and keep the parsed
instructions (discarding the no-instruction results) in source order. -/
def assembleSpec (lines : List String) : Except ParseError (List Instruction) :=
  ((List.enumFrom 1 lines).mapM (fun p => parse_line p.2 p.1)).map (List.filterMap id)

/-- The driver loop agrees with the spec-side description from any
starting line number. -/
theorem assembleFrom_eq (lines : List String) (n : Nat) :
    assembleFrom lines n =
      ((List.enumFrom n lines).mapM (fun p => parse_line p.2 p.1)).map
        (List.filterMap id) := by
  induction lines generalizing n with
  | nil => rfl
  | cons l rest ih =>
    rw [show List.enumFrom n (l :: rest) = (n, l) :: List.enumFrom (n + 1) rest from rfl,
      List.mapM_cons]
    cases hp : parse_line l n with
    | error e =>
      simp only [assembleFrom, hp]
      rfl
    | ok oi =>
      cases oi with
      | none =>
        simp only [assembleFrom, hp]
        rw [ih]
        cases hr : (List.enumFrom (n + 1) rest).mapM (fun p => parse_line p.2 p.1) with
        | error e => rfl
        | ok rs => rfl
      | some i =>
        simp only [assembleFrom, hp]
        rw [ih]
        cases hr : (List.enumFrom (n + 1) rest).mapM (fun p => parse_line p.2 p.1) with
        | error e => rfl
        | ok rs => rfl

/-- C6: the assembler equals the spec-side description: every line parsed
with its 1-based position, blank and comment-only lines contributing no
IR node, instructions kept in source order, and the first parse failure
aborting the whole run with no partial output. -/
theorem C6_assembler_contract (lines : List String) :
    assemble_to_ir lines = assembleSpec lines :=
  assembleFrom_eq lines 1

/-- The operand-bearing mnemonic family. -/
def isBearing (m : String) : Prop := m = "LOAD_CONST" ∨ m = "LOAD_MEM"

/-- The operand-free mnemonic family. -/
def isOperandFree (m : String) : Prop := m = "STORE_MEM" ∨ m = "BITREVERSE"

theorem isBearing_lookup {m : String} (h : isBearing m) : lookupOpcode m ≠ none := by
  rcases h with h | h <;> subst h <;> decide

theorem isOperandFree_lookup {m : String} (h : isOperandFree m) : lookupOpcode m ≠ none := by
  rcases h with h | h <;> subst h <;> decide

theorem isBearing_not_free {m : String} (h : isBearing m) : ¬ isOperandFree m := by
  rcases h with h | h <;> subst h <;> rintro (hf | hf) <;> exact absurd hf (by decide)

theorem isOperandFree_not_bearing {m : String} (h : isOperandFree m) : ¬ isBearing m := by
  rcases h with h | h <;> subst h <;> rintro (hb | hb) <;> exact absurd hb (by decide)

/-- Failure condition UnknownMnemonic, as the spec words it. -/
def condUnknown (line : String) : Prop :=
  strippedOf line ≠ [] ∧ lookupOpcode (mnemonicOf line) = none

/-- Failure condition ArityMismatch, as the spec words it. -/
def condArity (line : String) : Prop :=
  strippedOf line ≠ [] ∧
    ((isBearing (mnemonicOf line) ∧ (tokensOf line).length ≠ 2) ∨
      (isOperandFree (mnemonicOf line) ∧ (tokensOf line).length ≠ 1))

/-- Failure condition InvalidOperand, as the spec words it. -/
def condOperand (line : String) : Prop :=
  strippedOf line ≠ [] ∧ isBearing (mnemonicOf line) ∧
    (tokensOf line).length = 2 ∧ parsePyInt ((tokensOf line).getD 1 []) = none

/-- Exhaustive behaviour of the line parser: exactly one of seven shapes. -/
theorem parse_line_spec (line : String) (ln : Nat) :
    (strippedOf line = [] ∧ parse_line line ln = .ok none) ∨
    (strippedOf line ≠ [] ∧ lookupOpcode (mnemonicOf line) = none ∧
      parse_line line ln = .error (.unknownMnemonic ln (mnemonicOf line))) ∨
    (strippedOf line ≠ [] ∧ isBearing (mnemonicOf line) ∧ (tokensOf line).length ≠ 2 ∧
      parse_line line ln = .error (.arityMismatch ln)) ∨
    (strippedOf line ≠ [] ∧ isBearing (mnemonicOf line) ∧ (tokensOf line).length = 2 ∧
      parsePyInt ((tokensOf line).getD 1 []) = none ∧
      parse_line line ln = .error (.invalidOperand ln)) ∨
    (strippedOf line ≠ [] ∧ isBearing (mnemonicOf line) ∧ (tokensOf line).length = 2 ∧
      (∃ v, parsePyInt ((tokensOf line).getD 1 []) = some v) ∧
      (∃ i, parse_line line ln = .ok (some i))) ∨
    (strippedOf line ≠ [] ∧ isOperandFree (mnemonicOf line) ∧ (tokensOf line).length ≠ 1 ∧
      parse_line line ln = .error (.arityMismatch ln)) ∨
    (strippedOf line ≠ [] ∧ isOperandFree (mnemonicOf line) ∧ (tokensOf line).length = 1 ∧
      (∃ i, parse_line line ln = .ok (some i))) := by
  by_cases hs : strippedOf line = []
  · refine Or.inl ⟨hs, ?_⟩
    simp only [parse_line]
    rw [if_pos hs]
  · cases hlk : lookupOpcode (mnemonicOf line) with
    | none =>
      refine Or.inr (Or.inl ⟨hs, rfl, ?_⟩)
      simp only [parse_line]
      rw [if_neg hs]
      simp only [hlk]
    | some a =>
      rcases lookupOpcode_cases hlk with ⟨hm, ha⟩ | ⟨hm, ha⟩ | ⟨hm, ha⟩ | ⟨hm, ha⟩ <;>
        subst ha
      · by_cases hlen : (tokensOf line).length = 2
        · cases hop : parsePyInt ((tokensOf line).getD 1 []) with
          | none =>
            refine Or.inr (Or.inr (Or.inr (Or.inl ⟨hs, Or.inl hm, hlen, rfl, ?_⟩)))
            simp only [parse_line]
            rw [if_neg hs]
            simp only [hlk]
            rw [if_pos (Or.inl hm), if_neg (by omega)]
            simp only [hop]
          | some v =>
            refine Or.inr (Or.inr (Or.inr (Or.inr (Or.inl
              ⟨hs, Or.inl hm, hlen, ⟨v, rfl⟩, ⟨⟨mnemonicOf line, 42, some v⟩, ?_⟩⟩))))
            simp only [parse_line]
            rw [if_neg hs]
            simp only [hlk]
            rw [if_pos (Or.inl hm), if_neg (by omega)]
            simp only [hop]
        · refine Or.inr (Or.inr (Or.inl ⟨hs, Or.inl hm, hlen, ?_⟩))
          simp only [parse_line]
          rw [if_neg hs]
          simp only [hlk]
          rw [if_pos (Or.inl hm), if_pos hlen]
      · by_cases hlen : (tokensOf line).length = 2
        · cases hop : parsePyInt ((tokensOf line).getD 1 []) with
          | none =>
            refine Or.inr (Or.inr (Or.inr (Or.inl ⟨hs, Or.inr hm, hlen, rfl, ?_⟩)))
            simp only [parse_line]
            rw [if_neg hs]
            simp only [hlk]
            rw [if_pos (Or.inr hm), if_neg (by omega)]
            simp only [hop]
          | some v =>
            refine Or.inr (Or.inr (Or.inr (Or.inr (Or.inl
              ⟨hs, Or.inr hm, hlen, ⟨v, rfl⟩, ⟨⟨mnemonicOf line, 23, some v⟩, ?_⟩⟩))))
            simp only [parse_line]
            rw [if_neg hs]
            simp only [hlk]
            rw [if_pos (Or.inr hm), if_neg (by omega)]
            simp only [hop]
        · refine Or.inr (Or.inr (Or.inl ⟨hs, Or.inr hm, hlen, ?_⟩))
          simp only [parse_line]
          rw [if_neg hs]
          simp only [hlk]
          rw [if_pos (Or.inr hm), if_pos hlen]
      · by_cases hlen : (tokensOf line).length = 1
        · refine Or.inr (Or.inr (Or.inr (Or.inr (Or.inr (Or.inr
            ⟨hs, Or.inl hm, hlen, ⟨⟨mnemonicOf line, 1, none⟩, ?_⟩⟩)))))
          simp only [parse_line]
          rw [if_neg hs]
          simp only [hlk]
          rw [if_neg (by rw [hm]; decide), if_pos (Or.inl hm), if_neg (by omega)]
        · refine Or.inr (Or.inr (Or.inr (Or.inr (Or.inr (Or.inl
            ⟨hs, Or.inl hm, hlen, ?_⟩)))))
          simp only [parse_line]
          rw [if_neg hs]
          simp only [hlk]
          rw [if_neg (by rw [hm]; decide), if_pos (Or.inl hm), if_pos hlen]
      · by_cases hlen : (tokensOf line).length = 1
        · refine Or.inr (Or.inr (Or.inr (Or.inr (Or.inr (Or.inr
            ⟨hs, Or.inr hm, hlen, ⟨⟨mnemonicOf line, 60, none⟩, ?_⟩⟩)))))
          simp only [parse_line]
          rw [if_neg hs]
          simp only [hlk]
          rw [if_neg (by rw [hm]; decide), if_pos (Or.inr hm), if_neg (by omega)]
        · refine Or.inr (Or.inr (Or.inr (Or.inr (Or.inr (Or.inl
            ⟨hs, Or.inr hm, hlen, ?_⟩)))))
          simp only [parse_line]
          rw [if_neg hs]
          simp only [hlk]
          rw [if_neg (by rw [hm]; decide), if_pos (Or.inr hm), if_pos hlen]

/-- C5: on any line and 1-based line number, the parser fails exactly when
the comment-stripped, trimmed remainder is non-empty and the upper-cased
first token is unknown (UnknownMnemonic), or the token count is wrong for
the family (ArityMismatch), or the operand of an operand-bearing mnemonic
is not a valid base-10 integer (InvalidOperand); each failure kind occurs
exactly under its condition and always carries the given line number. -/
theorem C5_failure_characterization (line : String) (ln : Nat) :
    (parse_line line ln = .error (.unknownMnemonic ln (mnemonicOf line)) ↔
      condUnknown line) ∧
    (parse_line line ln = .error (.arityMismatch ln) ↔ condArity line) ∧
    (parse_line line ln = .error (.invalidOperand ln) ↔ condOperand line) ∧
    ((∃ e, parse_line line ln = .error e) ↔
      condUnknown line ∨ condArity line ∨ condOperand line) ∧
    (∀ e, parse_line line ln = .error e → e.lineNo = ln) := by
  rcases parse_line_spec line ln with
    ⟨hs, hp⟩ | ⟨hs, hlk, hp⟩ | ⟨hs, hb, hlen, hp⟩ | ⟨hs, hb, hlen, hop, hp⟩ |
    ⟨hs, hb, hlen, ⟨v, hop⟩, ⟨i, hp⟩⟩ | ⟨hs, hf, hlen, hp⟩ | ⟨hs, hf, hlen, ⟨i, hp⟩⟩ <;>
    rw [hp]
  · exact ⟨iff_of_false (by simp) (fun h => h.1 hs),
      iff_of_false (by simp) (fun h => h.1 hs),
      iff_of_false (by simp) (fun h => h.1 hs),
      iff_of_false (by simp)
        (fun h => by rcases h with h | h | h <;> exact h.1 hs),
      fun e he => absurd he (by simp)⟩
  · have hnb : ¬ isBearing (mnemonicOf line) := fun hb => isBearing_lookup hb hlk
    have hnf : ¬ isOperandFree (mnemonicOf line) := fun hf => isOperandFree_lookup hf hlk
    refine ⟨iff_of_true rfl ⟨hs, hlk⟩,
      iff_of_false (by simp)
        (fun h => by rcases h.2 with ⟨hb2, _⟩ | ⟨hf2, _⟩; exacts [hnb hb2, hnf hf2]),
      iff_of_false (by simp) (fun h => hnb h.2.1),
      iff_of_true ⟨_, rfl⟩ (Or.inl ⟨hs, hlk⟩), ?_⟩
    intro e he
    injection he with h2
    subst h2
    rfl
  · have hnn := isBearing_lookup hb
    have hnf := isBearing_not_free hb
    refine ⟨iff_of_false (by simp) (fun h => hnn h.2),
      iff_of_true rfl ⟨hs, Or.inl ⟨hb, hlen⟩⟩,
      iff_of_false (by simp) (fun h => hlen h.2.2.1),
      iff_of_true ⟨_, rfl⟩ (Or.inr (Or.inl ⟨hs, Or.inl ⟨hb, hlen⟩⟩)), ?_⟩
    intro e he
    injection he with h2
    subst h2
    rfl
  · have hnn := isBearing_lookup hb
    have hnf := isBearing_not_free hb
    refine ⟨iff_of_false (by simp) (fun h => hnn h.2),
      iff_of_false (by simp)
        (fun h => by rcases h.2 with ⟨_, hl2⟩ | ⟨hf2, _⟩; exacts [hl2 hlen, hnf hf2]),
      iff_of_true rfl ⟨hs, hb, hlen, hop⟩,
      iff_of_true ⟨_, rfl⟩ (Or.inr (Or.inr ⟨hs, hb, hlen, hop⟩)), ?_⟩
    intro e he
    injection he with h2
    subst h2
    rfl
  · have hnn := isBearing_lookup hb
    have hnf := isBearing_not_free hb
    exact ⟨iff_of_false (by simp) (fun h => hnn h.2),
      iff_of_false (by simp)
        (fun h => by rcases h.2 with ⟨_, hl2⟩ | ⟨hf2, _⟩; exacts [hl2 hlen, hnf hf2]),
      iff_of_false (by simp)
        (fun h => Option.noConfusion (hop.symm.trans h.2.2.2)),
      iff_of_false (by simp)
        (fun h => by
          rcases h with h | h | h
          · exact hnn h.2
          · rcases h.2 with ⟨_, hl2⟩ | ⟨hf2, _⟩
            exacts [hl2 hlen, hnf hf2]
          · exact Option.noConfusion (hop.symm.trans h.2.2.2)),
      fun e he => absurd he (by simp)⟩
  · have hnn := isOperandFree_lookup hf
    have hnb := isOperandFree_not_bearing hf
    refine ⟨iff_of_false (by simp) (fun h => hnn h.2),
      iff_of_true rfl ⟨hs, Or.inr ⟨hf, hlen⟩⟩,
      iff_of_false (by simp) (fun h => hnb h.2.1),
      iff_of_true ⟨_, rfl⟩ (Or.inr (Or.inl ⟨hs, Or.inr ⟨hf, hlen⟩⟩)), ?_⟩
    intro e he
    injection he with h2
    subst h2
    rfl
  · have hnn := isOperandFree_lookup hf
    have hnb := isOperandFree_not_bearing hf
    exact ⟨iff_of_false (by simp) (fun h => hnn h.2),
      iff_of_false (by simp)
        (fun h => by rcases h.2 with ⟨hb2, _⟩ | ⟨_, hl2⟩; exacts [hnb hb2, hl2 hlen]),
      iff_of_false (by simp) (fun h => hnb h.2.1),
      iff_of_false (by simp)
        (fun h => by
          rcases h with h | h | h
          · exact hnn h.2
          · rcases h.2 with ⟨hb2, _⟩ | ⟨_, hl2⟩
            exacts [hnb hb2, hl2 hlen]
          · exact hnb h.2.1),
      fun e he => absurd he (by simp)⟩

/-- C5 (witness): the line FOO 1 at line number 3 fails with
UnknownMnemonic carrying line number 3. -/
theorem C5_witness : (ParseError.unknownMnemonic 3 (mnemonicOf "FOO 1")).lineNo = 3 :=
  (C5_failure_characterization "FOO 1" 3).2.2.2.2 _
    ((C5_failure_characterization "FOO 1" 3).1.mpr ⟨by decide, by rfl⟩)
